import Mathlib

/-!
Verification of the pyFind traversal-and-match engine (src/pyFind.py).

Python strings are modelled as `List Char`.  Each definition is a shallow
embedding of the function of the same name in `pyFind.py`; comments give the
line numbers and spell out how the Python regular expressions used by the
source were translated.
-/

namespace PyFind

/-- Embeds `re.match('[^\.]*(\*+)', txt) != None` (pyFind.py line 58).
`re.match` anchors at the start of the string; `[^\.]*` consumes any
(backtrackable) prefix of non-dot characters and `\*+` then requires an
asterisk.  The regex therefore matches exactly when some `*` occurs with
only non-dot characters before it, i.e. when a `*` occurs before the first
`.` of the string.  This function scans left to right: it answers `true` on
the first `*` seen, `false` on the first `.` seen or at the end. -/
def starBeforeDot : List Char → Bool
  | [] => false
  | c :: rest => if c = '*' then true else if c = '.' then false else starBeforeDot rest

/-- `unsafeAsteriks` (pyFind.py lines 57-58):
`re.match('^\*$',txt) or (re.match('[^\.]*(\*+)',txt) != None)`.
In Python `$` also matches just before one trailing newline, so the first
disjunct holds exactly for `"*"` and `"*\n"`. -/
def unsafeAsteriks (s : List Char) : Bool :=
  decide (s = ['*']) || decide (s = ['*', '\n']) || starBeforeDot s

/-- `unsafeDots` (pyFind.py lines 59-60):
`re.match('^\.$',txt) or (re.match('([^\\\]\.+)[^\*]*',txt) != None)`.
After Python string-escape processing the second pattern is
`([^\\]\.+)[^\*]*`: anchored at the start it needs one non-backslash
character, then at least one `.`; the trailing `[^\*]*` can always match the
empty string.  So the second disjunct holds exactly when the string has at
least two characters, does not start with a backslash, and its second
character is `.`. -/
def unsafeDots (s : List Char) : Bool :=
  decide (s = ['.']) || decide (s = ['.', '\n']) ||
  (match s with
   | c :: d :: _ => decide (c ≠ '\\') && decide (d = '.')
   | _ => false)

/-- `re.sub(r'([\**^\.]\*+)', '.*', regex)` (pyFind.py line 246), scanning
with an explicit state.  The character class `[\**^\.]` is `{'*','^','.'}`;
the pattern is one such character followed by a greedy run of `*`s, replaced
by `.*`.  `re.sub` replaces leftmost non-overlapping occurrences and resumes
scanning after each replaced segment; the boolean `skip` is `true` while the
scanner is still inside the star run of the occurrence just replaced. -/
def subStarGo : Bool → List Char → List Char
  | _, [] => []
  | skip, c :: rest =>
    if skip ∧ c = '*' then subStarGo true rest
    else if (c = '*' ∨ c = '^' ∨ c = '.') ∧ rest.head? = some '*' then
      '.' :: '*' :: subStarGo true rest
    else c :: subStarGo false rest

def subStar (l : List Char) : List Char := subStarGo false l

/-- `re.sub(r'([\.*^\*]\.+)', '^\.\*$', regex)` (pyFind.py line 249), same
scanning scheme.  The character class `[\.*^\*]` is `{'.','*','^'}`; the
pattern is one such character followed by a greedy run of `.`s.  In the
replacement string the escapes `\.` and `\*` are not recognised replacement
escapes, so Python keeps the backslashes: each occurrence is replaced by the
six characters `^\.\*$`. -/
def subDotGo : Bool → List Char → List Char
  | _, [] => []
  | skip, c :: rest =>
    if skip ∧ c = '.' then subDotGo true rest
    else if (c = '.' ∨ c = '*' ∨ c = '^') ∧ rest.head? = some '.' then
      '^' :: '\\' :: '.' :: '\\' :: '*' :: '$' :: subDotGo true rest
    else c :: subDotGo false rest

def subDot (l : List Char) : List Char := subDotGo false l

/-- `re.search('^\.\*$', regex)` (pyFind.py line 242): anchored by `^` at the
start (no MULTILINE flag), and `$` also matches before one trailing newline,
so this holds exactly for `".*"` and `".*\n"`. -/
def searchCanonical (s : List Char) : Bool :=
  decide (s = ['.', '*']) || decide (s = ['.', '*', '\n'])

/-- The sanitization step of `main` (pyFind.py lines 242-249): the `.*`
canonicalization, then the unsafe-asterisk rewrite, then the unsafe-dot
rewrite, each applied to the result of the previous step. -/
def sanitize (s : List Char) : List Char :=
  let s1 := if searchCanonical s then ['^', '.', '*', '$'] else s
  let s2 := if unsafeAsteriks s1 then subStar s1 else s1
  if unsafeDots s2 then subDot s2 else s2

/-- The compile step of `main` (pyFind.py lines 252-255): `re.compile` on the
sanitized pattern inside `try`, with a bare `except` that compiles the
universal pattern `^.*$` instead.  Which strings Python's `re.compile`
accepts is abstracted as the boolean function `compiles`; `none` stands for
an uncaught compilation failure (which the code can only reach if even
`^.*$` failed to compile). -/
def compileWithFallback (compiles : List Char → Bool) (s : List Char) :
    Option (List Char) :=
  let t := sanitize s
  if compiles t then some t
  else if compiles ['^', '.', '*', '$'] then some ['^', '.', '*', '$'] else none

/-! ### The spec's pattern classes (used by claims C3 and C5)

These predicates are modelled from the spec's words, for comparison with the
detectors and rewrites embedded above from the source. -/

/-- Modelled from the spec: the hypothesis class of the identity claim —
"no bare unescaped `*`" (every `*` is immediately preceded by `.` or by a
backslash) and "no bare unescaped `.` outside the canonical `.*` form"
(every `.` is immediately preceded by a backslash or immediately followed by
`*`).  `prev` carries the preceding character. -/
def wellFormedFrom : Option Char → List Char → Bool
  | _, [] => true
  | prev, c :: rest =>
    (if c = '*' then decide (prev = some '.') || decide (prev = some '\\') else true) &&
    (if c = '.' then decide (prev = some '\\') || decide (rest.head? = some '*') else true) &&
    wellFormedFrom (some c) rest

def wellFormed (s : List Char) : Bool := wellFormedFrom none s

/-- No character of `{'.','*','^'}` immediately followed by a `.`: exactly
the condition under which the unsafe-dot rewrite `subDot` finds no
occurrence to replace. -/
def dotSubInert : List Char → Bool
  | [] => true
  | c :: rest =>
    (!((decide (c = '.') || decide (c = '*') || decide (c = '^')) &&
       decide (rest.head? = some '.'))) && dotSubInert rest

/-- Modelled from the spec (claim C5's rule): true iff the pattern contains
a maximal run of one or more `*` characters not immediately preceded by a
`.` — i.e. some `*` whose predecessor is neither `*` (which would put it
inside a run) nor `.`. -/
def specBareStarRun : Option Char → List Char → Bool
  | _, [] => false
  | prev, c :: rest =>
    (decide (c = '*') && !(decide (prev = some '*')) && !(decide (prev = some '.'))) ||
    specBareStarRun (some c) rest

/-- Modelled from the spec (claim C5): exactly `*`, or some bare star run. -/
def specUnsafeAsteriks (s : List Char) : Bool :=
  decide (s = ['*']) || specBareStarRun none s

/-! ### ActionDispatcher (`handleFunctionExecution`, pyFind.py lines 262-274)

The platform is POSIX (`OS_NAME = 'posix'`, so `re.search(WINDOWS_NT,
OS_NAME)` fails and the `Popen` branch runs). -/

/-- `action.replace(SUB_KEY, subject)` with `SUB_KEY = "\x7b\x7d"`
(pyFind.py lines 32, 267): Python `str.replace` substitutes every leftmost
non-overlapping occurrence of the two-character token and resumes scanning
after the inserted text. -/
def substituteToken (subject : List Char) : List Char → List Char
  | [] => []
  | [c] => [c]
  | c :: d :: rest =>
    if c = '\x7b' ∧ d = '\x7d' then subject ++ substituteToken subject rest
    else c :: substituteToken subject (d :: rest)

/-- Whether the token `\x7b\x7d` occurs in the list. -/
def containsToken : List Char → Bool
  | [] => false
  | [_] => false
  | c :: d :: rest =>
    (decide (c = '\x7b') && decide (d = '\x7d')) || containsToken (d :: rest)

/-- Splitting a list at every character satisfying `p`, keeping empty
pieces: with `p = (· = ' ')` this is Python's `cmdText.split(" ")`, which
cuts at every single space. -/
def splitWhen (p : Char → Bool) : List Char → List (List Char)
  | [] => [[]]
  | c :: rest =>
    if p c then [] :: splitWhen p rest
    else match splitWhen p rest with
      | [] => [[c]]
      | t :: ts => (c :: t) :: ts

/-- The substituted command line of `handleFunctionExecution` (line 267). -/
def cmdText (action subject : List Char) : List Char :=
  substituteToken subject action

/-- The argument vector handed to `Popen` (line 273):
`list(filter(lambda item: item, cmdText.split(" ")))` — split at every
space character, then keep the truthy (non-empty) pieces. -/
def cmdList (action subject : List Char) : List (List Char) :=
  (splitWhen (fun c => c = ' ') (cmdText action subject)).filter (fun t => !t.isEmpty)

/-- Python's `str` whitespace (the characters `str.split()` splits on). -/
def isPySpace (c : Char) : Bool :=
  c = ' ' || c = '\t' || c = '\n' || c = '\x0d' || c = '\x0b' || c = '\x0c'

/-- Modelled from the spec (claim C6's rule): "split the substituted command
line on whitespace into discrete argument tokens (dropping empty tokens)" —
cut at every whitespace character and drop the empty pieces. -/
def specCmdList (action subject : List Char) : List (List Char) :=
  (splitWhen isPySpace (cmdText action subject)).filter (fun t => !t.isEmpty)

/-! ### Matcher (`matchPatterns`, pyFind.py lines 147-170, and the string
branch of `handlePrint`, lines 80-93) -/

/-- What a call wrote to the two streams. -/
structure PrintOut where
  out : List (List Char)
  err : List (List Char)
deriving DecidableEq

/-- `handlePrint` (pyFind.py lines 71-93) restricted to string arguments —
the only values `matchPatterns` passes it.  A falsy argument (the empty
string) prints nothing (line 80); otherwise `sys.stdout.write("%s\n" % s)`
either succeeds or raises `UnicodeEncodeError`, in which case the handler
writes a diagnostic (followed by the exception text, folded into the same
event here) to `sys.stderr` (lines 91-92).  Whether a string encodes for
the stdout encoding is environment-dependent and abstracted as
`encodable`. -/
def handlePrintStr (encodable : List Char → Bool) (s : List Char) : PrintOut :=
  if s = [] then ⟨[], []⟩
  else if encodable s then ⟨[s ++ ['\n']], []⟩
  else ⟨[], ["UnicodeEncodeError encode while trying to print\n".data]⟩

/-- `HIGHLIGHT = '\033['` (pyFind.py line 50). -/
def HIGHLIGHT : List Char := ['\x1b', '[']

/-- `POSIX_COLORS.get(colorKey, GREEN)` rendered through the format spec
`\x7bcolor:2<\x7d` (fill `2`, left alignment, no width — i.e. plain `str`).
A key missing from the table yields the *string* constant `GREEN`, not a
numeric code. -/
def colorCode (colorKey : List Char) : List Char :=
  if colorKey = "WHITE".data then "0".data
  else if colorKey = "RED".data then "31".data
  else if colorKey = "GREEN".data then "32".data
  else if colorKey = "YELLOW".data then "33".data
  else "GREEN".data

/-- `colorPatterns` (pyFind.py lines 142-145): highlight escape, colour
code, `m`, the text, then the white (0) reset. -/
def colorPatterns (colorKey text : List Char) : List Char :=
  HIGHLIGHT ++ colorCode colorKey ++ 'm' :: text ++ HIGHLIGHT ++ '0' :: ['m']

/-- `' '.join(regMatches)` (pyFind.py line 154). -/
def joinSpace : List (List Char) → List Char
  | [] => []
  | [t] => t
  | t :: ts => t ++ ' ' :: joinSpace ts

/-- Python `str.replace(tgt, repl)` for a non-empty target, with fuel: each
scan step consumes at least one input character and the inserted
replacement is not rescanned, so `s.length` steps always suffice. -/
def replaceGo (tgt repl : List Char) : Nat → List Char → List Char
  | 0, s => s
  | _ + 1, [] => []
  | fuel + 1, c :: rest =>
    if tgt.isPrefixOf (c :: rest) then repl ++ replaceGo tgt repl fuel ((c :: rest).drop tgt.length)
    else c :: replaceGo tgt repl fuel rest

/-- Inserting `repl` before every character and at the end: Python's
`str.replace` with the empty string as target. -/
def replaceEmpty (repl : List Char) : List Char → List Char
  | [] => repl
  | c :: rest => repl ++ c :: replaceEmpty repl rest

/-- Python `text.replace(item, colored)` as used by the highlight loop of
`matchPatterns` (line 166). -/
def pyReplace (s tgt repl : List Char) : List Char :=
  if tgt.isEmpty then replaceEmpty repl s else replaceGo tgt repl s.length s

/-- The result of one `matchPatterns` call: the boolean match signal plus
what was written to the streams. -/
structure MatchOut where
  matched : Bool
  print : PrintOut
deriving DecidableEq

/-- `matchPatterns` (pyFind.py lines 147-170).  The compiled pattern is
abstracted as its `findall` behaviour — the list of matched substrings for
a given text (patterns whose `findall` returns tuples, i.e. multi-group
patterns, raise in `join`/`replace` and are outside this model);
`supportsColoring` is the module constant `SUPPORTS_TERMINAL_COLORING` and
`encodable` abstracts the stdout encoding as in `handlePrintStr`. -/
def matchPatterns (findall : List Char → List (List Char))
    (encodable : List Char → Bool) (supportsColoring : Bool)
    (text : List Char) (verbosity onlyPatternsPrinted : Bool)
    (colorKey : List Char) : MatchOut :=
  let regMatches := findall text
  if regMatches = [] then ⟨false, ⟨[], []⟩⟩
  else if onlyPatternsPrinted then
    let joined := joinSpace regMatches
    if supportsColoring then ⟨true, handlePrintStr encodable (colorPatterns colorKey joined)⟩
    else ⟨true, handlePrintStr encodable joined⟩
  else if verbosity then
    let text2 :=
      if supportsColoring then
        regMatches.foldl (fun t item => pyReplace t item (colorPatterns colorKey item)) text
      else text
    ⟨true, handlePrintStr encodable text2⟩
  else ⟨true, ⟨[], []⟩⟩

/-! ### TreeTraverser (`treeTraverse`, pyFind.py lines 172-212)

The filesystem is a finite tree; every node carries the outcome of the
`os.access(path, os.R_OK)` check (`readable`), directories carry their
`os.listdir` entries in order.  Every node of the tree exists
(`os.path.exists` holds for the given root and for every listed child). -/

mutual
inductive FSNode where
  | file : (readable : Bool) → FSNode
  | dir : (readable : Bool) → FSEntries → FSNode
inductive FSEntries where
  | nil : FSEntries
  | cons : (name : List Char) → FSNode → FSEntries → FSEntries
end

def FSNode.readable : FSNode → Bool
  | .file r => r
  | .dir r _ => r

/-- `os.path.join(thePath, child)` for a plain child name: insert `/`
unless the left part is empty or already ends in `/`. -/
def pjoin (p n : List Char) : List Char :=
  if p = [] then n
  else if p.getLast? = some '/' then p ++ n
  else p ++ '/' :: n

/-- The run parameters `treeTraverse` receives (pyFind.py lines 172-173):
whether the compiled-pattern object has a `match` attribute (first guard,
line 181), the boolean match signal of `matchPatterns` on a subject
(`matchSignal` — the pattern abstracted to that signal), whether a non-empty
action string is configured, and whether launching the action on a given
subject succeeds (`launchOk` abstracts `Popen`, line 274: `false` means the
launch raises, e.g. `FileNotFoundError` for a missing command). -/
structure Cfg where
  regexOk : Bool
  matchSignal : List Char → Bool
  hasAction : Bool
  launchOk : List Char → Bool

/-- What one `treeTraverse` call did: the subjects passed to
`matchPatterns` in order (`evald`), the paths passed to `os.listdir` in
order (`listed`), and — since nothing in `treeTraverse` or
`handleFunctionExecution` catches it — the subject of an action launch that
raised, `none` when no exception escaped (`exc`). -/
structure TravOut where
  evald : List (List Char)
  listed : List (List Char)
  exc : Option (List Char)
deriving DecidableEq

mutual
/-- `treeTraverse` (pyFind.py lines 172-212).  Guards in source order:
invalid pattern object (line 181), negative depth (line 185), existence
(line 188; every modelled node exists), readability (line 192).  Then the
path itself is matched (line 196) and on a match with an action configured
the action is launched (line 201) — a failed launch raises and the
exception propagates out of the call.  Finally the depth is decremented and
each `os.listdir` child is traversed with the decremented depth
(lines 203-212); an exception from a child aborts the loop and propagates. -/
def treeTraverse (cfg : Cfg) : FSNode → Int → List Char → TravOut
  | t, depth, path =>
    if !cfg.regexOk then ⟨[], [], none⟩
    else if depth < 0 then ⟨[], [], none⟩
    else if !t.readable then ⟨[], [], none⟩
    else if cfg.matchSignal path && cfg.hasAction && !cfg.launchOk path then
      ⟨[path], [], some path⟩
    else
      match t with
      | .file _ => ⟨[path], [], none⟩
      | .dir _ es =>
        let r := traverseEntries cfg es (depth - 1) path
        ⟨path :: r.evald, path :: r.listed, r.exc⟩

/-- The `for child in os.listdir(thePath)` loop (lines 207-212): each child
is traversed at the parent's decremented depth; an uncaught exception from
a child stops the loop for the remaining siblings. -/
def traverseEntries (cfg : Cfg) : FSEntries → Int → List Char → TravOut
  | .nil, _, _ => ⟨[], [], none⟩
  | .cons n c rest, depth, path =>
    let r1 := treeTraverse cfg c depth (pjoin path n)
    match r1.exc with
    | some e => ⟨r1.evald, r1.listed, some e⟩
    | none =>
      let r2 := traverseEntries cfg rest depth path
      ⟨r1.evald ++ r2.evald, r1.listed ++ r2.listed, r2.exc⟩
end

mutual
/-- Every node of the tree passes the `os.access(_, os.R_OK)` check. -/
def allReadable : FSNode → Bool
  | .file r => r
  | .dir r es => r && allReadableE es
def allReadableE : FSEntries → Bool
  | .nil => true
  | .cons _ c rest => allReadable c && allReadableE rest
end

mutual
/-- The preorder listing of the paths of all nodes at depth at most `d`
below the given node: the reference truncation the traversal is compared
against. -/
def pathsUpTo : Nat → FSNode → List Char → List (List Char)
  | _, .file _, p => [p]
  | d, .dir _ es, p =>
    p :: (match d with
          | 0 => []
          | d' + 1 => entriesUpTo d' es p)
def entriesUpTo : Nat → FSEntries → List Char → List (List Char)
  | _, .nil, _ => []
  | d, .cons n c rest, p => pathsUpTo d c (pjoin p n) ++ entriesUpTo d rest p
end

mutual
/-- The paths of the readable directories of the tree. -/
def readableDirPaths : FSNode → List Char → List (List Char)
  | .file _, _ => []
  | .dir r es, p => (if r then [p] else []) ++ readableDirPathsE es p
def readableDirPathsE : FSEntries → List Char → List (List Char)
  | .nil, _ => []
  | .cons n c rest, p => readableDirPaths c (pjoin p n) ++ readableDirPathsE rest p
end

/-! ### StdinFilter (`filterStdin`, pyFind.py lines 284-309) -/

/-- Python `lineIn.strip('\n')`: remove every leading and every trailing
newline character. -/
def stripNl (s : List Char) : List Char :=
  ((s.dropWhile (fun c => c = '\n')).reverse.dropWhile (fun c => c = '\n')).reverse

/-- `filterStdin` (pyFind.py lines 284-309), with the stream of successful
non-empty `sys.stdin.readline()` results given as `lines` (each element one
line, normally ending in `'\n'`); once `lines` is exhausted `readline`
returns `""`.  The loop body's `else` clause runs whenever `readline` did
not raise — including the iteration that read `""` and cleared
`stdinReading` — so the empty string too is newline-stripped, matched, and
(when matched with an action configured) handed to
`handleFunctionExecution`, before the loop stops.  The matcher is
abstracted to its boolean signal as in `Cfg`; action launches are assumed
not to raise.  Returns the subjects passed to `matchPatterns` and the
subjects passed to `handleFunctionExecution`, in order. -/
def filterStdin (matchSignal : List Char → Bool) (hasAction : Bool) :
    List (List Char) → List (List Char) × List (List Char)
  | [] =>
    let subject := stripNl []
    ([subject], if matchSignal subject && hasAction then [subject] else [])
  | l :: rest =>
    let subject := stripNl l
    let r := filterStdin matchSignal hasAction rest
    (subject :: r.1, (if matchSignal subject && hasAction then [subject] else []) ++ r.2)

/-! ### The configuration phase of `main` (pyFind.py lines 228-260) -/

inductive MainOutcome where
  | exited : Int → MainOutcome
  | traversed : List Char → Int → MainOutcome
  | filtered : List Char → MainOutcome
deriving DecidableEq

/-- `main` after flag parsing (pyFind.py lines 228-260).  Python's
`int(maxdepth)` is abstracted as `parsedMaxdepth`: `some n` when it returns
`n`, `none` when it raises `ValueError`.  On `none` the process exits with
code `-1` (line 232) before anything else runs; on a negative depth it
exits with code `-2` (line 236); otherwise the pattern is sanitized
(lines 242-249) and the run dispatches to `treeTraverse` when a target path
was given, else to `filterStdin` (lines 256-260). -/
def mainOutcome (parsedMaxdepth : Option Int) (regex : List Char)
    (hasTargetPath : Bool) : MainOutcome :=
  match parsedMaxdepth with
  | none => .exited (-1)
  | some n =>
    if n < 0 then .exited (-2)
    else if hasTargetPath then .traversed (sanitize regex) n
    else .filtered (sanitize regex)

/-! ## Theorems -/

/-- C7: a maxdepth argument that does not parse as an integer makes the
process exit with code −1, and one that parses negative makes it exit with
code −2; in both cases the outcome is an exit, not a traversal or a stdin
filter run. -/
theorem maxdepth_validation (regex : List Char) (hasTargetPath : Bool) :
    mainOutcome none regex hasTargetPath = .exited (-1) ∧
    ∀ n : Int, n < 0 → mainOutcome (some n) regex hasTargetPath = .exited (-2) := by
  refine ⟨rfl, fun n hn => ?_⟩
  simp [mainOutcome, hn]

theorem maxdepth_validation_witness :
    mainOutcome none ['a'] true = .exited (-1) ∧
    mainOutcome (some (-1)) ['a'] true = .exited (-2) :=
  ⟨(maxdepth_validation ['a'] true).1,
   (maxdepth_validation ['a'] true).2 (-1) (by decide)⟩

/-- C10: `filterStdin` evaluates every stripped input line and then, in the
iteration whose read returned the end-of-stream `""`, still evaluates the
stripped empty string; the action subjects are exactly the evaluated
subjects that match while an action is configured — including the final
empty string. -/
theorem filterStdin_final_empty_eval (matchSignal : List Char → Bool)
    (hasAction : Bool) (lines : List (List Char)) :
    filterStdin matchSignal hasAction lines =
      (lines.map stripNl ++ [[]],
       (lines.map stripNl ++ [[]]).filter (fun s => matchSignal s && hasAction)) := by
  induction lines with
  | nil =>
    cases h1 : matchSignal [] <;> cases h2 : hasAction <;>
      simp [filterStdin, stripNl, List.filter, h1, h2]
  | cons l rest ih =>
    simp only [filterStdin, ih, List.map_cons, List.cons_append, List.filter_cons]
    cases h : matchSignal (stripNl l) && hasAction <;> simp [h]

/-- C4: for the input patterns `*` and `.` the sanitize-then-compile
pipeline yields a compiled pattern (provided only that the universal
pattern `^.*$` itself compiles, which it does): when the sanitized string
fails to compile the fallback `^.*$` is compiled instead, so no pattern
error escapes. -/
theorem star_dot_compile_safe (compiles : List Char → Bool)
    (hUniv : compiles ['^', '.', '*', '$'] = true) :
    (compileWithFallback compiles ['*']).isSome = true ∧
    (compileWithFallback compiles ['.']).isSome = true ∧
    (compiles (sanitize ['*']) = false →
      compileWithFallback compiles ['*'] = some ['^', '.', '*', '$']) ∧
    (compiles (sanitize ['.']) = false →
      compileWithFallback compiles ['.'] = some ['^', '.', '*', '$']) := by
  have hs1 : sanitize ['*'] = ['*'] := by decide
  have hs2 : sanitize ['.'] = ['.'] := by decide
  unfold compileWithFallback
  rw [hs1, hs2]
  cases h1 : compiles ['*'] <;> cases h2 : compiles ['.'] <;>
    simp [h1, h2, hUniv, hs1, hs2]

theorem star_dot_compile_safe_witness :
    (compileWithFallback (fun t => decide (t = ['.']) || decide (t = ['^', '.', '*', '$'])) ['*']).isSome = true ∧
    (compileWithFallback (fun t => decide (t = ['.']) || decide (t = ['^', '.', '*', '$'])) ['.']).isSome = true ∧
    ((fun t => decide (t = ['.']) || decide (t = ['^', '.', '*', '$'])) (sanitize ['*']) = false →
      compileWithFallback (fun t => decide (t = ['.']) || decide (t = ['^', '.', '*', '$'])) ['*'] = some ['^', '.', '*', '$']) ∧
    ((fun t => decide (t = ['.']) || decide (t = ['^', '.', '*', '$'])) (sanitize ['.']) = false →
      compileWithFallback (fun t => decide (t = ['.']) || decide (t = ['^', '.', '*', '$'])) ['.'] = some ['^', '.', '*', '$']) :=
  star_dot_compile_safe (fun t => decide (t = ['.']) || decide (t = ['^', '.', '*', '$'])) (by decide)

theorem unsafeAsteriks_eq_starBeforeDot (s : List Char) :
    unsafeAsteriks s = starBeforeDot s := by
  unfold unsafeAsteriks
  by_cases h1 : s = ['*']
  · subst h1; decide
  · by_cases h2 : s = ['*', '\n']
    · subst h2; decide
    · simp [h1, h2]

theorem starBeforeDot_iff (l : List Char) :
    starBeforeDot l = true ↔ ∃ l₁ l₂, l = l₁ ++ '*' :: l₂ ∧ '.' ∉ l₁ := by
  induction l with
  | nil =>
    simp only [starBeforeDot]
    constructor
    · intro h; cases h
    · rintro ⟨l₁, l₂, h, -⟩
      cases l₁ <;> simp_all
  | cons c rest ih =>
    by_cases hc : c = '*'
    · subst hc
      simp only [starBeforeDot, if_pos rfl]
      exact ⟨fun _ => ⟨[], rest, rfl, by simp⟩, fun _ => rfl⟩
    · by_cases hd : c = '.'
      · subst hd
        have hsb : starBeforeDot ('.' :: rest) = false := by
          simp [starBeforeDot]
        rw [hsb]
        constructor
        · intro h; cases h
        · rintro ⟨l₁, l₂, h, hn⟩
          cases l₁ with
          | nil => simp at h
          | cons a l₁' =>
            simp only [List.cons_append, List.cons.injEq] at h
            exact absurd (h.1 ▸ List.mem_cons_self a l₁') hn
      · simp only [starBeforeDot, if_neg hc, if_neg hd]
        rw [ih]
        constructor
        · rintro ⟨l₁, l₂, h, hn⟩
          refine ⟨c :: l₁, l₂, by simp [h], ?_⟩
          simp only [List.mem_cons, not_or]
          exact ⟨fun h' => hd h'.symm, hn⟩
        · rintro ⟨l₁, l₂, h, hn⟩
          cases l₁ with
          | nil =>
            simp only [List.nil_append, List.cons.injEq] at h
            exact absurd h.1 hc
          | cons a l₁' =>
            simp only [List.cons_append, List.cons.injEq] at h
            exact ⟨l₁', l₂, h.2, fun hm => hn (List.mem_cons_of_mem _ hm)⟩

/-- C5 counterexample: in `a.b*` the star run at the end is not preceded by
a `.`, so the claim's rule says the detector fires; but `unsafeAsteriks`
answers `false`, because its anchored regex only sees a `*` occurring
before the first `.` of the pattern. -/
theorem unsafeAsteriks_claim_false :
    unsafeAsteriks "a.b*".data = false ∧
    specUnsafeAsteriks "a.b*".data = true := by
  decide

/-- C5 amended: `unsafeAsteriks` returns true iff some `*` occurs with no
`.` anywhere before it in the pattern (in particular for the pattern `*`
itself); a bare star run that lies after the first `.` is not detected. -/
theorem unsafeAsteriks_iff_star_before_first_dot (s : List Char) :
    unsafeAsteriks s = true ↔ ∃ l₁ l₂, s = l₁ ++ '*' :: l₂ ∧ '.' ∉ l₁ := by
  rw [unsafeAsteriks_eq_starBeforeDot]
  exact starBeforeDot_iff s

theorem substituteToken_of_no_token (subject : List Char) :
    ∀ l, containsToken l = false → substituteToken subject l = l
  | [], _ => rfl
  | [_], _ => rfl
  | c :: d :: rest, h => by
    rw [containsToken] at h
    simp only [Bool.or_eq_false_iff, Bool.and_eq_false_iff, decide_eq_false_iff_not] at h
    rw [substituteToken, if_neg fun hcd => h.1.elim (fun h' => h' hcd.1) (fun h' => h' hcd.2)]
    rw [substituteToken_of_no_token subject (d :: rest) h.2]

theorem substituteToken_boundary (subject post : List Char)
    (hpost : containsToken post = false) :
    ∀ pre, containsToken pre = false →
      substituteToken subject (pre ++ '\x7b' :: '\x7d' :: post) = pre ++ subject ++ post := by
  intro pre
  induction pre with
  | nil =>
    intro _
    rw [List.nil_append, substituteToken, if_pos ⟨rfl, rfl⟩,
      substituteToken_of_no_token subject post hpost, List.nil_append]
  | cons c pre' ih =>
    intro hpre
    cases pre' with
    | nil =>
      rw [List.cons_append, List.nil_append, substituteToken,
        if_neg (fun hcd => by exact absurd hcd.2 (by decide)),
        substituteToken, if_pos ⟨rfl, rfl⟩,
        substituteToken_of_no_token subject post hpost]
      simp
    | cons e pre'' =>
      rw [containsToken] at hpre
      simp only [Bool.or_eq_false_iff, Bool.and_eq_false_iff,
        decide_eq_false_iff_not] at hpre
      have hrec := ih hpre.2
      simp only [List.cons_append] at hrec ⊢
      rw [substituteToken,
        if_neg fun hcd => hpre.1.elim (fun h' => h' hcd.1) (fun h' => h' hcd.2), hrec]

/-- C6 counterexample: the command line is split only at space characters,
not at all whitespace — with a tab in the action template the code hands
`Popen` the single argument `ls\tx`, where the claim's whitespace-split
rule would produce the two arguments `ls` and `x`. -/
theorem cmdList_claim_false :
    cmdList "ls\t\x7b\x7d".data "x".data = ["ls\tx".data] ∧
    specCmdList "ls\t\x7b\x7d".data "x".data = ["ls".data, "x".data] ∧
    cmdList "ls\t\x7b\x7d".data "x".data ≠ specCmdList "ls\t\x7b\x7d".data "x".data := by
  decide

/-- C6 amended: for an action template containing the substitution token
exactly once, the dispatcher's command line is exactly the template with
the literal subject in place of the token (the subject text appears at the
token's position and nowhere else new), and on the POSIX platform that
command line is split at every SPACE character — not at every whitespace
character — into tokens, dropping the empty ones, before being executed as
a direct child process. -/
theorem handleFunctionExecution_tokens (pre post subject : List Char)
    (hpre : containsToken pre = false) (hpost : containsToken post = false) :
    cmdText (pre ++ '\x7b' :: '\x7d' :: post) subject = pre ++ subject ++ post ∧
    cmdList (pre ++ '\x7b' :: '\x7d' :: post) subject =
      (splitWhen (fun c => c = ' ') (pre ++ subject ++ post)).filter
        (fun t => !t.isEmpty) := by
  have h := substituteToken_boundary subject post hpost pre hpre
  exact ⟨h, by rw [cmdList, cmdText, h]⟩

theorem handleFunctionExecution_tokens_witness :
    cmdText ("echo ".data ++ '\x7b' :: '\x7d' :: ([] : List Char)) "hi".data =
      "echo ".data ++ "hi".data ++ [] ∧
    cmdList ("echo ".data ++ '\x7b' :: '\x7d' :: ([] : List Char)) "hi".data =
      (splitWhen (fun c => c = ' ') ("echo ".data ++ "hi".data ++ [])).filter
        (fun t => !t.isEmpty) :=
  handleFunctionExecution_tokens "echo ".data [] "hi".data (by decide) (by decide)

/-- C9 counterexample: when the subject cannot be encoded for the stdout
stream, `matchPatterns` (in `handlePrint`) writes a diagnostic to the
standard error stream. -/
theorem matchPatterns_stderr_counterexample :
    (matchPatterns (fun _ => [['a']]) (fun _ => false) false
      ['a'] true false "RED".data).print.err ≠ [] := by
  decide

/-- C9 amended: `matchPatterns` writes nothing to the standard error stream
provided every string it emits is encodable for the stdout encoding; only
an encoding failure (`UnicodeEncodeError` in `handlePrint`) reaches
stderr. -/
theorem matchPatterns_no_stderr (findall : List Char → List (List Char))
    (encodable : List Char → Bool) (supportsColoring : Bool) (text : List Char)
    (verbosity onlyPatternsPrinted : Bool) (colorKey : List Char)
    (henc : ∀ s, encodable s = true) :
    (matchPatterns findall encodable supportsColoring text verbosity
      onlyPatternsPrinted colorKey).print.err = [] := by
  have hp : ∀ s, (handlePrintStr encodable s).err = [] := by
    intro s
    unfold handlePrintStr
    by_cases h : s = []
    · simp [h]
    · simp [h, henc s]
  cases onlyPatternsPrinted <;> cases verbosity <;> cases supportsColoring <;>
    by_cases hm : findall text = [] <;>
      simp [matchPatterns, hm, hp]

theorem matchPatterns_no_stderr_witness :
    (matchPatterns (fun _ => [['a']]) (fun _ => true) true
      ['a'] true true "RED".data).print.err = [] :=
  matchPatterns_no_stderr (fun _ => [['a']]) (fun _ => true) true
    ['a'] true true "RED".data (fun _ => rfl)

theorem subDotGo_id : ∀ l, dotSubInert l = true → subDotGo false l = l
  | [], _ => rfl
  | c :: rest, h => by
    rw [dotSubInert, Bool.and_eq_true] at h
    have hcond : ¬((c = '.' ∨ c = '*' ∨ c = '^') ∧ rest.head? = some '.') := by
      rintro ⟨hc | hc | hc, hh⟩ <;> simp [hc, hh] at h
    rw [subDotGo, if_neg (fun hc => Bool.false_ne_true hc.1), if_neg hcond,
      subDotGo_id rest h.2]

mutual
theorem subStarGo_false_id : ∀ (l : List Char) (prev : Option Char),
    wellFormedFrom prev l = true → subStarGo false l = l
  | [], _, _ => rfl
  | c :: rest, prev, h => by
    rw [wellFormedFrom, Bool.and_eq_true, Bool.and_eq_true] at h
    obtain ⟨⟨h1, h2⟩, h3⟩ := h
    rw [subStarGo, if_neg (fun hc => Bool.false_ne_true hc.1)]
    by_cases hcond : (c = '*' ∨ c = '^' ∨ c = '.') ∧ rest.head? = some '*'
    · obtain ⟨hc, hh⟩ := hcond
      cases rest with
      | nil => simp at hh
      | cons d rest2 =>
        simp only [List.head?_cons, Option.some.injEq] at hh
        subst hh
        rcases hc with hc | hc | hc
        · subst hc
          rw [wellFormedFrom, Bool.and_eq_true, Bool.and_eq_true] at h3
          have := h3.1
          simp at this
        · subst hc
          rw [wellFormedFrom, Bool.and_eq_true, Bool.and_eq_true] at h3
          have := h3.1
          simp at this
        · subst hc
          rw [if_pos ⟨Or.inr (Or.inr rfl), rfl⟩]
          rw [wellFormedFrom, Bool.and_eq_true, Bool.and_eq_true] at h3
          rw [subStarGo, if_pos ⟨rfl, rfl⟩, subStarGo_true_id rest2 h3.2]
    · rw [if_neg hcond, subStarGo_false_id rest (some c) h3]

theorem subStarGo_true_id : ∀ (l : List Char),
    wellFormedFrom (some '*') l = true → subStarGo true l = l
  | [], _ => rfl
  | c :: rest, h => by
    rw [wellFormedFrom, Bool.and_eq_true, Bool.and_eq_true] at h
    obtain ⟨⟨h1, h2⟩, h3⟩ := h
    have hc' : c ≠ '*' := by
      intro hc; subst hc; simp at h1
    rw [subStarGo, if_neg (fun hcc => hc' hcc.2)]
    by_cases hcond : (c = '*' ∨ c = '^' ∨ c = '.') ∧ rest.head? = some '*'
    · obtain ⟨hc, hh⟩ := hcond
      cases rest with
      | nil => simp at hh
      | cons d rest2 =>
        simp only [List.head?_cons, Option.some.injEq] at hh
        subst hh
        rcases hc with hc | hc | hc
        · exact absurd hc hc'
        · subst hc
          rw [wellFormedFrom, Bool.and_eq_true, Bool.and_eq_true] at h3
          have := h3.1
          simp at this
        · subst hc
          rw [if_pos ⟨Or.inr (Or.inr rfl), rfl⟩]
          rw [wellFormedFrom, Bool.and_eq_true, Bool.and_eq_true] at h3
          rw [subStarGo, if_pos ⟨rfl, rfl⟩, subStarGo_true_id rest2 h3.2]
    · rw [if_neg hcond, subStarGo_false_id rest (some c) h3]
end

/-- C3 counterexample: the pattern `^.*$` is in the claim's class — its only
`*` is immediately preceded by `.`, its only `.` is immediately followed by
`*` (the canonical `.*` form) — yet sanitization does not return it
unchanged: `unsafeDots` fires (second character `.`, first character not a
backslash) and the unsafe-dot rewrite turns `^.` into the literal
replacement `^\.\*$`, producing `^\.\*$*$`. -/
theorem sanitize_claim_false :
    wellFormed "^.*$".data = true ∧ sanitize "^.*$".data ≠ "^.*$".data := by
  decide

/-- C3 amended: sanitization is the identity on every well-formed pattern
(no bare unescaped `*`, no bare unescaped `.` outside the canonical `.*`
form) that additionally is not the exact string `.*` (or `.*` with a
trailing newline), and contains no character of `{'.','*','^'}` immediately
followed by a `.` — without the extra conditions the canonicalization step
rewrites `.*`, and the unsafe-dot rewrite mangles e.g. `^.*$`. -/
theorem sanitize_unchanged (s : List Char) (hwf : wellFormed s = true)
    (hdot : dotSubInert s = true) (h1 : s ≠ ['.', '*'])
    (h2 : s ≠ ['.', '*', '\n']) :
    sanitize s = s := by
  have hcanon : searchCanonical s = false := by
    unfold searchCanonical
    simp [h1, h2]
  have hstar : subStar s = s := subStarGo_false_id s none hwf
  have hdot' : subDot s = s := subDotGo_id s hdot
  unfold sanitize
  rw [hcanon]
  simp only [Bool.false_eq_true, if_false]
  cases h3 : unsafeAsteriks s <;> cases h4 : unsafeDots s <;>
    simp [h3, h4, hstar, hdot']

theorem sanitize_unchanged_witness :
    sanitize "a.*b".data = "a.*b".data :=
  sanitize_unchanged "a.*b".data (by decide) (by decide) (by decide) (by decide)

theorem treeTraverse_neg_depth (cfg : Cfg) (t : FSNode) (d : Int)
    (path : List Char) (hd : d < 0) : treeTraverse cfg t d path = ⟨[], [], none⟩ := by
  rw [treeTraverse.eq_def]
  cases hre : cfg.regexOk <;> simp [hre, hd]

theorem traverseEntries_neg_depth (cfg : Cfg) :
    ∀ (es : FSEntries) (d : Int) (path : List Char), d < 0 →
      traverseEntries cfg es d path = ⟨[], [], none⟩
  | .nil, _, _, _ => rfl
  | .cons n c rest, d, path, hd => by
    rw [traverseEntries, treeTraverse_neg_depth cfg c d (pjoin path n) hd,
      traverseEntries_neg_depth cfg rest d path hd]
    rfl

mutual
theorem travNode_ok (cfg : Cfg) (hre : cfg.regexOk = true)
    (hl : ∀ p, cfg.launchOk p = true) :
    ∀ (t : FSNode) (d : Int) (path : List Char), 0 ≤ d → allReadable t = true →
      (treeTraverse cfg t d path).evald = pathsUpTo d.toNat t path ∧
      (treeTraverse cfg t d path).exc = none
  | .file r, d, path, hd, hr => by
    rw [allReadable] at hr
    rw [treeTraverse]
    simp [hre, not_lt.mpr hd, hr, hl path, FSNode.readable, pathsUpTo]
  | .dir r es, d, path, hd, hr => by
    rw [allReadable, Bool.and_eq_true] at hr
    rw [treeTraverse]
    by_cases hd0 : d = 0
    · subst hd0
      have hneg := traverseEntries_neg_depth cfg es (-1) path (by omega)
      simp [hre, hr.1, hl path, FSNode.readable, hneg, pathsUpTo]
    · have hd1 : 0 ≤ d - 1 := by omega
      obtain ⟨he, hx⟩ := travEntries_ok cfg hre hl es (d - 1) path hd1 hr.2
      have htn : d.toNat = (d - 1).toNat + 1 := by omega
      simp only [hre, Bool.not_true, Bool.false_eq_true, if_false,
        not_lt.mpr hd, FSNode.readable, hr.1, Bool.not_true, hl path,
        Bool.not_true, Bool.and_false, if_false, htn, pathsUpTo]
      simp [he, hx, hl path]

theorem travEntries_ok (cfg : Cfg) (hre : cfg.regexOk = true)
    (hl : ∀ p, cfg.launchOk p = true) :
    ∀ (es : FSEntries) (d : Int) (path : List Char), 0 ≤ d →
      allReadableE es = true →
      (traverseEntries cfg es d path).evald = entriesUpTo d.toNat es path ∧
      (traverseEntries cfg es d path).exc = none
  | .nil, d, path, hd, hr => by
    simp [traverseEntries, entriesUpTo]
  | .cons n c rest, d, path, hd, hr => by
    rw [allReadableE, Bool.and_eq_true] at hr
    obtain ⟨h1, h2⟩ := travNode_ok cfg hre hl c d (pjoin path n) hd hr.1
    obtain ⟨h3, h4⟩ := travEntries_ok cfg hre hl rest d path hd hr.2
    rw [traverseEntries]
    simp only [h2]
    simp [h1, h3, h4, entriesUpTo]
end

/-- C1: with a valid compiled-pattern object, an everywhere-readable tree
and no action-launch failure, `treeTraverse` at non-negative depth `D`
passes to the matcher exactly the root path and the paths of the
descendants at depth at most `D` below it, in preorder — never an entry
deeper than `D` — and terminates without an escaping exception; in
particular at depth 0 only the root path is evaluated and none of its
children. -/
theorem treeTraverse_depth_bound (cfg : Cfg) (t : FSNode) (D : Int)
    (path : List Char) (hre : cfg.regexOk = true)
    (hlaunch : ∀ p, cfg.launchOk p = true) (hD : 0 ≤ D)
    (hread : allReadable t = true) :
    (treeTraverse cfg t D path).evald = pathsUpTo D.toNat t path ∧
    (treeTraverse cfg t D path).exc = none ∧
    (treeTraverse cfg t 0 path).evald = [path] := by
  obtain ⟨h1, h2⟩ := travNode_ok cfg hre hlaunch t D path hD hread
  obtain ⟨h3, -⟩ := travNode_ok cfg hre hlaunch t 0 path le_rfl hread
  refine ⟨h1, h2, ?_⟩
  rw [h3]
  cases t <;> simp [pathsUpTo]

theorem treeTraverse_depth_bound_witness :
    (treeTraverse ⟨true, fun _ => true, false, fun _ => true⟩
        (.dir true (.cons ['a'] (.file true) .nil)) 1 ['r']).evald =
      pathsUpTo (Int.toNat 1) (.dir true (.cons ['a'] (.file true) .nil)) ['r'] ∧
    (treeTraverse ⟨true, fun _ => true, false, fun _ => true⟩
        (.dir true (.cons ['a'] (.file true) .nil)) 1 ['r']).exc = none ∧
    (treeTraverse ⟨true, fun _ => true, false, fun _ => true⟩
        (.dir true (.cons ['a'] (.file true) .nil)) 0 ['r']).evald = [['r']] :=
  treeTraverse_depth_bound ⟨true, fun _ => true, false, fun _ => true⟩
    (.dir true (.cons ['a'] (.file true) .nil)) 1 ['r'] rfl (fun _ => rfl)
    (by decide) (by decide)

theorem treeTraverse_file_listed (cfg : Cfg) (r : Bool) (d : Int)
    (path : List Char) : (treeTraverse cfg (.file r) d path).listed = [] := by
  rw [treeTraverse]
  split_ifs <;> rfl

mutual
theorem travNode_listed (cfg : Cfg) :
    ∀ (t : FSNode) (d : Int) (path x : List Char),
      x ∈ (treeTraverse cfg t d path).listed → x ∈ readableDirPaths t path
  | t, d, path, x => by
    intro hx
    cases t with
    | file r =>
      rw [treeTraverse_file_listed] at hx
      simp at hx
    | dir r es =>
      rw [treeTraverse] at hx
      split at hx
      · simp at hx
      · split at hx
        · simp at hx
        · split at hx
          · simp at hx
          · next hC =>
            split at hx
            · simp at hx
            · simp only [List.mem_cons] at hx
              have hread : r = true := by
                simpa [FSNode.readable] using hC
              rcases hx with h | h
              · subst h
                rw [readableDirPaths, hread]
                simp
              · rw [readableDirPaths]
                exact List.mem_append_right _
                  (travEntries_listed cfg es (d - 1) path x h)

theorem travEntries_listed (cfg : Cfg) :
    ∀ (es : FSEntries) (d : Int) (path x : List Char),
      x ∈ (traverseEntries cfg es d path).listed → x ∈ readableDirPathsE es path
  | .nil, d, path, x => by
    intro hx
    simp [traverseEntries] at hx
  | .cons n c rest, d, path, x => by
    intro hx
    rw [traverseEntries] at hx
    rw [readableDirPathsE]
    split at hx
    · exact List.mem_append_left _ (travNode_listed cfg c d (pjoin path n) x hx)
    · simp only [List.mem_append] at hx
      rcases hx with h | h
      · exact List.mem_append_left _ (travNode_listed cfg c d (pjoin path n) x h)
      · exact List.mem_append_right _ (travEntries_listed cfg rest d path x h)
end

/-- C8: a path's children are enumerated (`os.listdir`) only when that path
is a readable directory of the tree (existence holds for every modelled
node), and a readable non-directory is itself passed to the matcher — at
non-negative depth with a valid pattern — while its children are never
enumerated. -/
theorem treeTraverse_recursion_guard (cfg : Cfg) (t : FSNode) (d : Int)
    (path x : List Char) :
    (x ∈ (treeTraverse cfg t d path).listed → x ∈ readableDirPaths t path) ∧
    (treeTraverse cfg (.file true) d path).listed = [] ∧
    (0 ≤ d → cfg.regexOk = true →
      (treeTraverse cfg (.file true) d path).evald = [path]) := by
  refine ⟨travNode_listed cfg t d path x, treeTraverse_file_listed cfg true d path, ?_⟩
  intro hd hre
  rw [treeTraverse]
  by_cases habort : cfg.matchSignal path && cfg.hasAction && !cfg.launchOk path <;>
    simp [hre, not_lt.mpr hd, FSNode.readable, habort]

theorem treeTraverse_recursion_guard_witness :
    (['r'] ∈ (treeTraverse ⟨true, fun _ => true, false, fun _ => true⟩
        (.dir true (.cons ['a'] (.file true) .nil)) 1 ['r']).listed →
      ['r'] ∈ readableDirPaths (.dir true (.cons ['a'] (.file true) .nil)) ['r']) ∧
    (treeTraverse ⟨true, fun _ => true, false, fun _ => true⟩
        (.file true) 1 ['r']).listed = [] ∧
    (0 ≤ (1 : Int) →
      (⟨true, fun _ => true, false, fun _ => true⟩ : Cfg).regexOk = true →
      (treeTraverse ⟨true, fun _ => true, false, fun _ => true⟩
        (.file true) 1 ['r']).evald = [['r']]) :=
  treeTraverse_recursion_guard ⟨true, fun _ => true, false, fun _ => true⟩
    (.dir true (.cons ['a'] (.file true) .nil)) 1 ['r'] ['r']

mutual
theorem travNode_abort (cfg : Cfg) :
    ∀ (t : FSNode) (d : Int) (path e : List Char),
      (treeTraverse cfg t d path).exc = some e →
      cfg.hasAction = true ∧ cfg.matchSignal e = true ∧ cfg.launchOk e = false
  | t, d, path, e => by
    intro hx
    cases t with
    | file r =>
      rw [treeTraverse] at hx
      split at hx
      · simp at hx
      · split at hx
        · simp at hx
        · split at hx
          · simp at hx
          · split at hx
            · next hD =>
              simp only [Option.some.injEq] at hx
              subst hx
              have hD' : cfg.matchSignal path = true ∧ cfg.hasAction = true ∧
                  cfg.launchOk path = false := by
                simpa [Bool.and_eq_true, Bool.not_eq_true', and_assoc] using hD
              exact ⟨hD'.2.1, hD'.1, hD'.2.2⟩
            · simp at hx
    | dir r es =>
      rw [treeTraverse] at hx
      split at hx
      · simp at hx
      · split at hx
        · simp at hx
        · split at hx
          · simp at hx
          · split at hx
            · next hD =>
              simp only [Option.some.injEq] at hx
              subst hx
              have hD' : cfg.matchSignal path = true ∧ cfg.hasAction = true ∧
                  cfg.launchOk path = false := by
                simpa [Bool.and_eq_true, Bool.not_eq_true', and_assoc] using hD
              exact ⟨hD'.2.1, hD'.1, hD'.2.2⟩
            · simp only at hx
              exact travEntries_abort cfg es (d - 1) path e hx

theorem travEntries_abort (cfg : Cfg) :
    ∀ (es : FSEntries) (d : Int) (path e : List Char),
      (traverseEntries cfg es d path).exc = some e →
      cfg.hasAction = true ∧ cfg.matchSignal e = true ∧ cfg.launchOk e = false
  | .nil, d, path, e => by
    intro hx
    simp [traverseEntries] at hx
  | .cons n c rest, d, path, e => by
    intro hx
    rw [traverseEntries] at hx
    split at hx
    · next e' heq =>
      simp only [Option.some.injEq] at hx
      subst hx
      exact travNode_abort cfg c d (pjoin path n) e' heq
    · simp only at hx
      exact travEntries_abort cfg rest d path e hx
end

/-- C2 counterexample: with an action configured whose launch fails on the
first child `r/a` (e.g. the command is not found), the exception escapes
`treeTraverse` uncaught (`exc` is `some "r/a"`) and the sibling `r/b` is
never evaluated — traversal does not continue. -/
theorem treeTraverse_launch_abort_counterexample :
    treeTraverse ⟨true, fun _ => true, true, fun p => decide (p ≠ "r/a".data)⟩
        (.dir true (.cons "a".data (.file true) (.cons "b".data (.file true) .nil)))
        1 "r".data =
      ⟨["r".data, "r/a".data], ["r".data], some "r/a".data⟩ ∧
    "r/b".data ∉
      (treeTraverse ⟨true, fun _ => true, true, fun p => decide (p ≠ "r/a".data)⟩
        (.dir true (.cons "a".data (.file true) (.cons "b".data (.file true) .nil)))
        1 "r".data).evald := by
  decide

/-- C2 amended: `treeTraverse` (and `handleFunctionExecution`) catch
nothing around the action launch, so a launch failure is an uncaught
exception that aborts the traversal, skipping the remaining siblings and
ancestors; every exception escaping the traversal is exactly such a
failure — it occurs on a matched subject, with the action configured and
the launch failing on that subject (the interpreter, not the program, then
reports it on the standard error stream). -/
theorem treeTraverse_launch_abort (cfg : Cfg) (t : FSNode) (d : Int)
    (path e : List Char) (h : (treeTraverse cfg t d path).exc = some e) :
    cfg.hasAction = true ∧ cfg.matchSignal e = true ∧ cfg.launchOk e = false :=
  travNode_abort cfg t d path e h

theorem treeTraverse_launch_abort_witness :
    (⟨true, fun _ => true, true, fun p => decide (p ≠ "r/a".data)⟩ : Cfg).hasAction = true ∧
    (⟨true, fun _ => true, true, fun p => decide (p ≠ "r/a".data)⟩ : Cfg).matchSignal "r/a".data = true ∧
    (⟨true, fun _ => true, true, fun p => decide (p ≠ "r/a".data)⟩ : Cfg).launchOk "r/a".data = false :=
  treeTraverse_launch_abort ⟨true, fun _ => true, true, fun p => decide (p ≠ "r/a".data)⟩
    (.dir true (.cons "a".data (.file true) (.cons "b".data (.file true) .nil)))
    1 "r".data "r/a".data (by decide)

end PyFind
